import Mathlib

/-!
# Verification of the AI web code editor (diff engine, patch applier,
# console relay, edit orchestrator, file management)

Shallow embedding of the repository's core logic:

* `commonPrefixLen`, `suffixScan`, `diff` — the greedy prefix/suffix text
  diff computed inline in `MonacoEditorComponent.applyChangesWithAnimation`.
* `EditorState`, `applyChangesWithAnimation` — the animated patch applier's
  try/finally structure.
* `onMessage`, `postLog`, `serializeArg` — the console relay protocol.
* `AppState` and the file-management / AI-orchestration operations of the
  root application component (`setActiveFile`, `closeFile`, `deleteFile`,
  `confirmCreateFile`, `uploadOne`, `updateFileContent`, `askAI`, ...).

Strings are modelled as `List Char`; JS `===` on strings becomes equality
of the character lists.
-/

/-! ## Text diff engine

`applyChangesWithAnimation` computes the diff inline:

```
let prefixLen = 0;
while (prefixLen < oldContent.length && prefixLen < newContent.length &&
       oldContent[prefixLen] === newContent[prefixLen]) { prefixLen++; }

let suffixLen = 0;
while (suffixLen < oldContent.length - prefixLen &&
       suffixLen < newContent.length - prefixLen &&
       oldContent[oldContent.length - 1 - suffixLen] ===
         newContent[newContent.length - 1 - suffixLen]) { suffixLen++; }

const textToInsert = newContent.substring(prefixLen, newContent.length - suffixLen);
```
-/

/-- Forward scan: number of leading positions at which the two strings agree
(the first `while` loop above). -/
def commonPrefixLen : List Char → List Char → Nat
  | a :: as, b :: bs => if a = b then commonPrefixLen as bs + 1 else 0
  | _, _ => 0

/-- Backward scan (the second `while` loop above): starting from `s`, keep
incrementing while `s` is below both remaining-length caps and the characters
at distance `s` from the two ends agree.  `List.getD` with an arbitrary
default stands for JS indexing; the guards keep every access in range. -/
def suffixScan (old new : List Char) (p s : Nat) : Nat :=
  if h : s < old.length - p ∧ s < new.length - p ∧
      old.getD (old.length - 1 - s) 'a' = new.getD (new.length - 1 - s) 'a' then
    suffixScan old new p (s + 1)
  else
    s
termination_by old.length - p - s
decreasing_by omega

/-- The suffix length computed by the component: the backward scan started at 0. -/
def diffSuffixLen (old new : List Char) (p : Nat) : Nat :=
  suffixScan old new p 0

/-- The spec's `DiffResult` record. -/
structure DiffResult where
  prefixLength : Nat
  suffixLength : Nat
  replacementText : List Char
deriving DecidableEq, Repr

/-- The diff the patch engine computes: forward scan, capped backward scan,
and `replacementText = newContent.substring(prefixLen, newContent.length - suffixLen)`. -/
def diff (old new : List Char) : DiffResult :=
  let p := commonPrefixLen old new
  let s := diffSuffixLen old new p
  { prefixLength := p
    suffixLength := s
    replacementText := (new.take (new.length - s)).drop p }

/-! ## Animated patch applier (try/finally structure)

`applyChangesWithAnimation` wraps all animation steps in
`try { ... } finally { this.isAnimating = false;
  if (this.editor && this.editor.getValue() !== newContent)
    this.editor.setValue(newContent); }`.

The editor buffer is modelled by `EditorState`; the body of the `try` block
(select / delete / character-by-character typing, with any interleaved
concurrent buffer mutations) is abstracted as an arbitrary function from the
entry state to an outcome that either completes or throws, in either case
leaving the buffer in some state.  The component is assumed initialized
(`this.editor` present), which is the `if (!this.editor) return` guard and
the `this.editor &&` conjunct of the `finally` block. -/

/-- The single text buffer of the Monaco component: its full text and the
`isAnimating` latch. -/
structure EditorState where
  text : List Char
  isAnimating : Bool
deriving DecidableEq, Repr

/-- Result of running the `try` block: it either ran to completion or threw
at some step; either way the buffer is left in some state. -/
inductive AnimationOutcome where
  | completed (st : EditorState)
  | threw (st : EditorState)
deriving DecidableEq, Repr

/-- The `finally` block: clear the latch, then force the full text if it
still differs from the target. -/
def animationFinally (newContent : List Char) (st : EditorState) : EditorState :=
  let st1 : EditorState := { st with isAnimating := false }
  if st1.text = newContent then st1 else { st1 with text := newContent }

/-- `applyChangesWithAnimation(newContent)`: set the latch, run the `try`
body (any behavior, completing or throwing), and run the `finally` block on
whatever state resulted. -/
def applyChangesWithAnimation (body : EditorState → AnimationOutcome)
    (newContent : List Char) (st : EditorState) : EditorState :=
  let entry : EditorState := { st with isAnimating := true }
  match body entry with
  | .completed st2 => animationFinally newContent st2
  | .threw st2 => animationFinally newContent st2

/-- Insert one character at a caret offset (a zero-width ranged edit). -/
def insertAt (l : List Char) (i : Nat) (c : Char) : List Char :=
  l.take i ++ [c] ++ l.drop i

/-- The `typeTextAnimated` loop: insert the characters one by one, the caret
advancing after each insertion. -/
def typeChars : List Char → Nat → List Char → List Char
  | l, _, [] => l
  | l, caret, c :: cs => typeChars (insertAt l caret c) (caret + 1) cs

/-- The happy-path `try` body with no interference and no exception: a no-op
when the text already matches, otherwise delete the middle range in one
ranged edit, then type `replacementText` character by character at the caret
(which sits at offset `prefixLength` after the deletion). -/
def happyPathBody (newContent : List Char) (st : EditorState) : AnimationOutcome :=
  let old := st.text
  if old = newContent then .completed st
  else
    let d := diff old newContent
    let afterDelete := old.take d.prefixLength ++ old.drop (old.length - d.suffixLength)
    .completed { st with text := typeChars afterDelete d.prefixLength d.replacementText }

/-! ## Console relay protocol

The sandbox instrumentation script (`getConsoleInterceptorScript`) wraps the
five console severities; `postLog` serializes each argument and posts
`{ type: 'CONSOLE_LOG', payload: { type, data: serializedArgs, timestamp } }`
to the parent.  The host side (`AppComponent.onMessage`) accepts a message
only if `event.source` is identical to the preview iframe's `contentWindow`
and the message's `type` field is `'CONSOLE_LOG'`. -/

/-- Console severity (`log/warn/error/info/debug`). -/
inductive LogKind where
  | log | warn | error | info | debug
deriving DecidableEq, Repr

/-- A value inside the sandbox, as far as the serializer distinguishes:
an `Error` instance (with its `message` and `stack`), a value whose
`JSON.parse(JSON.stringify(...))` round trip succeeds (the round-trip result
is abstracted as `json`, including the bigint `toString() + 'n'` suffixing
done by the replacer), or a value on which `JSON.stringify` throws
(circular structure). -/
inductive SandboxValue where
  | errorVal (message stack : List Char)
  | jsonVal (json : List Char)
  | circularVal
deriving DecidableEq, Repr

/-- The serialized form of one console argument.  The `marker` of `errObj`
models the literal `true` stored in the error-marker field of the serialized
object (`__error` in the source, `isError` in the spec's naming). -/
inductive SerializedArg where
  | errObj (marker : Bool) (message stack : List Char)
  | json (j : List Char)
  | placeholder
deriving DecidableEq, Repr

/-- Per-argument serialization rule of `postLog`:
`arg instanceof Error` ⇒ `{ __error: true, message: arg.message, stack: arg.stack }`;
otherwise the JSON round trip; on serialization failure the fixed
`'Unserializable Object'` placeholder. -/
def serializeArg : SandboxValue → SerializedArg
  | .errorVal m s => .errObj true m s
  | .jsonVal j => .json j
  | .circularVal => .placeholder

/-- A structured console log entry (`ConsoleLog` in the console component). -/
structure ConsoleLog where
  kind : LogKind
  data : List SerializedArg
  timestamp : List Char
deriving DecidableEq, Repr

/-- The message posted to the parent context. -/
structure PostedMessage where
  msgType : List Char
  payload : ConsoleLog
deriving DecidableEq, Repr

/-- The `'CONSOLE_LOG'` discriminator string. -/
def CONSOLE_LOG_KIND : List Char := "CONSOLE_LOG".toList

/-- `postLog(type, args)`: serialize every argument and post the structured
message with a timestamp. -/
def postLog (kind : LogKind) (args : List SandboxValue) (timestamp : List Char) :
    PostedMessage :=
  { msgType := CONSOLE_LOG_KIND
    payload := { kind := kind, data := args.map serializeArg, timestamp := timestamp } }

/-- An incoming `window:message` event on the host side: the identity of the
sending window (windows are modelled by numeric identities) and the data. -/
structure HostMessageEvent where
  source : Nat
  data : PostedMessage
deriving DecidableEq, Repr

/-! ## Application data model (root component) -/

/-- The supported language/extension set. -/
inductive EditorKind where
  | html | css | js | ts | json | md | scss | xml | svg | txt | yaml
deriving DecidableEq, Repr

/-- A project file: `{ name, content, language }`; `name` is the identity. -/
structure File where
  name : List Char
  content : List Char
  language : EditorKind
deriving DecidableEq, Repr

/-- `SUPPORTED_EXTENSIONS`, paired with the corresponding language value the
`as EditorType` cast produces. -/
def SUPPORTED_EXTENSIONS : List (List Char × EditorKind) :=
  [("html".toList, .html), ("css".toList, .css), ("js".toList, .js),
   ("ts".toList, .ts), ("json".toList, .json), ("md".toList, .md),
   ("scss".toList, .scss), ("xml".toList, .xml), ("svg".toList, .svg),
   ("txt".toList, .txt), ("yaml".toList, .yaml)]

/-- `name.split('.').pop()`: the segment after the last dot (the whole name
when there is no dot). -/
def lastDotSegment (name : List Char) : List Char :=
  (name.reverse.takeWhile (fun c => c ≠ '.')).reverse

/-- Look the extension up in the supported set (`SUPPORTED_EXTENSIONS.includes`
combined with the cast); `none` means the extension is unsupported. -/
def parseLang (ext : List Char) : Option EditorKind :=
  (SUPPORTED_EXTENSIONS.find? (fun p => decide (p.1 = ext))).map (fun p => p.2)

/-- `fileName.match(SUPPORTED_EXTENSIONS_REGEX)`: the name ends in a dot
followed by a supported extension.  Equivalently, the name contains a dot and
its last-dot segment is supported. -/
def matchesSupportedExt (name : List Char) : Bool :=
  SUPPORTED_EXTENSIONS.any (fun p => ('.' :: p.1).isSuffixOf name)

/-- JS `String.prototype.trim` whitespace test, restricted to the common
whitespace characters. -/
def isJsSpace (c : Char) : Bool :=
  c = ' ' || c = '\t' || c = '\n' || c = '\r'

/-- `s.trim()`. -/
def jsTrim (s : List Char) : List Char :=
  ((s.dropWhile isJsSpace).reverse.dropWhile isJsSpace).reverse

/-- State of the root `AppComponent` (the signals the verified operations
read or write).  `previewWindow` is the identity of the preview iframe's
`contentWindow`.  `previewVersion` is a ghost counter: it is bumped exactly
when `this.files.update(...)` runs, i.e. whenever the `files` signal re-emits
and the debounced (`debounceTime(300)`) `iframeSrcDoc` pipeline will rebuild
the sandbox document.  `animationLog` is a ghost journal: one entry
`(fileName, newContent)` is appended per invocation of the Monaco
component's `applyChangesWithAnimation`. -/
structure AppState where
  files : List File
  openFiles : List File
  activeFile : Option File
  consoleLogs : List ConsoleLog
  previewWindow : Nat
  previewVersion : Nat
  aiPrompt : List Char
  aiError : List Char
  aiExplanation : List Char
  isAiLoading : Bool
  isAiApplyingEdits : Bool
  isCreatingFile : Bool
  newFileName : List Char
  animationLog : List (List Char × List Char)
deriving DecidableEq, Repr

/-- Host-side listener:

```
onMessage(event) {
  if (event.source !== this.previewIframe.nativeElement.contentWindow) return;
  const { type, payload } = event.data;
  if (type === 'CONSOLE_LOG') {
    this.consoleLogs.update(logs => [...logs, payload]);
  }
}
``` -/
def onMessage (st : AppState) (ev : HostMessageEvent) : AppState :=
  if ev.source ≠ st.previewWindow then st
  else if ev.data.msgType = CONSOLE_LOG_KIND then
    { st with consoleLogs := st.consoleLogs ++ [ev.data.payload] }
  else st

/-- `forcePreviewRefresh()`: `files.update(f => [...f])` (same elements, new
array — the signal re-emits and the sandbox is rebuilt) and clear the log. -/
def forcePreviewRefresh (st : AppState) : AppState :=
  { st with previewVersion := st.previewVersion + 1, consoleLogs := [] }

/-! ## File management operations -/

/-- `updateFileContent(fileName, newContent)`: map over the collection,
replacing the content of every record whose `name` equals `fileName`.
The `files` signal re-emits (debounced sandbox rebuild). -/
def updateFileContent (st : AppState) (fileName newContent : List Char) : AppState :=
  { st with
    files := st.files.map (fun f =>
      if f.name = fileName then { f with content := newContent } else f)
    previewVersion := st.previewVersion + 1 }

/-- `updateActiveFileContent(newContent)`: delegate to `updateFileContent`
for the active file, if any. -/
def updateActiveFileContent (st : AppState) (newContent : List Char) : AppState :=
  match st.activeFile with
  | some a => updateFileContent st a.name newContent
  | none => st

/-- `setActiveFile(file)`: append the file to the open tabs unless a tab
with its name is already open, then make it active. -/
def setActiveFile (st : AppState) (file : File) : AppState :=
  let st1 :=
    if st.openFiles.any (fun f => decide (f.name = file.name)) then st
    else { st with openFiles := st.openFiles ++ [file] }
  { st1 with activeFile := some file }

/-- A placeholder `File` standing for the out-of-range JS array access
(never reached under the guards of `closeFile`). -/
def emptyFile : File := { name := [], content := [], language := .txt }

/-- `closeFile(fileToClose, event)`: remove the tab; if it was the active
file, activate the neighbouring tab (index `min(currentIndex, length-1)` of
the remaining tabs) or `null` when none remain. -/
def closeFile (st : AppState) (fileToClose : File) : AppState :=
  match st.openFiles.findIdx? (fun f => decide (f.name = fileToClose.name)) with
  | none => st
  | some currentIndex =>
    let newOpenFiles := st.openFiles.filter (fun f => decide (f.name ≠ fileToClose.name))
    let neighbour := newOpenFiles.getD (min currentIndex (newOpenFiles.length - 1)) emptyFile
    let st1 :=
      if st.activeFile.map File.name = some fileToClose.name then
        if newOpenFiles = [] then { st with activeFile := none }
        else { st with activeFile := some neighbour }
      else st
    { st1 with openFiles := newOpenFiles }

/-- `cancelCreateFile()`. -/
def cancelCreateFile (st : AppState) : AppState :=
  { st with isCreatingFile := false, newFileName := [] }

/-- `confirmCreateFile()`: reject an empty (trimmed) name, a name that does
not match the supported-extension regex, and a duplicate name; otherwise
create an empty file, add it to the collection, and activate it.
The `(parseLang ...).getD .txt` realizes the unchecked `as EditorType` cast;
the regex guard guarantees the lookup succeeds. -/
def confirmCreateFile (st : AppState) : AppState :=
  let fileName := jsTrim st.newFileName
  if fileName = [] then cancelCreateFile st
  else if ¬ matchesSupportedExt fileName then st
  else if st.files.any (fun f => decide (f.name = fileName)) then st
  else
    let language := (parseLang (lastDotSegment fileName)).getD .txt
    let newFile : File := { name := fileName, content := [], language := language }
    let st1 := { st with
      files := st.files ++ [newFile]
      previewVersion := st.previewVersion + 1 }
    cancelCreateFile (setActiveFile st1 newFile)

/-- `deleteFile(fileToDelete, event)`: after the user confirms, close its
tab (when open) and filter it out of the collection. -/
def deleteFile (st : AppState) (fileToDelete : File) (confirmed : Bool) : AppState :=
  if ¬ confirmed then st
  else
    let st1 :=
      if st.openFiles.any (fun f => decide (f.name = fileToDelete.name)) then
        closeFile st fileToDelete
      else st
    { st1 with
      files := st1.files.filter (fun f => decide (f.name ≠ fileToDelete.name))
      previewVersion := st1.previewVersion + 1 }

/-- One uploaded file, as processed by the `reader.onload` callback of
`handleFileUpload`: if the name collides, ask for overwrite confirmation and
(on confirmation) delete the existing record first; only then validate the
extension — an unsupported extension aborts with an alert; otherwise the new
file is added and activated. -/
def uploadOne (st : AppState) (name content : List Char) (confirmOverwrite : Bool) :
    AppState :=
  let collides := st.files.any (fun f => decide (f.name = name))
  if collides ∧ ¬ confirmOverwrite then st
  else
    let st1 :=
      if collides then
        { st with
          files := st.files.filter (fun f => decide (f.name ≠ name))
          previewVersion := st.previewVersion + 1 }
      else st
    match parseLang (lastDotSegment name) with
    | none => st1
    | some language =>
      let newFile : File := { name := name, content := content, language := language }
      setActiveFile
        { st1 with
          files := st1.files ++ [newFile]
          previewVersion := st1.previewVersion + 1 }
        newFile

/-! ## AI edit orchestrator (`askAI`) -/

/-- The structured response of the AI collaborator
(`GeminiService.getCodeModification`): an explanation plus optional full
replacement texts per language.  A field that is `none` models an absent
key; JS truthiness makes an empty string behave like an absent key. -/
structure AiResponse where
  explanation : List Char
  html : Option (List Char)
  css : Option (List Char)
  js : Option (List Char)
deriving DecidableEq, Repr

/-- A queued per-file job `{ fileName, after }`. -/
structure FileDiff where
  fileName : List Char
  after : List Char
deriving DecidableEq, Repr

/-- A thrown JS value as far as the `catch` blocks inspect it:
`err instanceof Error ? err.message : <fallback>`. -/
structure Thrown where
  isError : Bool
  message : List Char
deriving DecidableEq, Repr

/-- The single user-visible error string produced from a thrown value. -/
def errText (e : Thrown) : List Char :=
  if e.isError then e.message else "Произошла ошибка при обращении к AI.".toList

/-- `response.html && response.html !== (htmlFile?.content ?? '')`:
the patch is present, truthy (non-empty) and differs from the current text. -/
def patchGuard (patch : Option (List Char)) (current : List Char) : Bool :=
  match patch with
  | none => false
  | some p => decide (p ≠ []) && decide (p ≠ current)

/-- Queue construction of `askAI`: for html, css, js in that order, if the
response carries a changed patch, queue `{ fileName, after }` using the
found file's name (or the conventional default name when no file of that
language exists). -/
def buildDiffs (resp : AiResponse) (files : List File) : List FileDiff :=
  let htmlFile := files.find? (fun f => decide (f.language = .html))
  let cssFile := files.find? (fun f => decide (f.language = .css))
  let jsFile := files.find? (fun f => decide (f.language = .js))
  (if patchGuard resp.html ((htmlFile.map File.content).getD []) then
    [{ fileName := (htmlFile.map File.name).getD ("index.html".toList)
       after := resp.html.getD [] }]
   else []) ++
  (if patchGuard resp.css ((cssFile.map File.content).getD []) then
    [{ fileName := (cssFile.map File.name).getD ("style.css".toList)
       after := resp.css.getD [] }]
   else []) ++
  (if patchGuard resp.js ((jsFile.map File.content).getD []) then
    [{ fileName := (jsFile.map File.name).getD ("script.js".toList)
       after := resp.js.getD [] }]
   else [])

/-- The `for (const diff of diffs)` loop of `askAI`.  Per job: look the file
up by name in the (current) collection; if present, activate it, run the
animated apply (recorded in the ghost `animationLog`; `animThrows` is the
oracle saying whether that apply rejects, and with which thrown value), and
commit the content via `updateFileContent`.  A rejection propagates out of
the loop immediately (the loop body is inside `askAI`'s `try`), carrying the
thrown value; the remaining jobs are not visited.  When the editor component
is absent (`hasEditor = false`) the animated apply is skipped but the commit
still happens. -/
def applyDiffs (hasEditor : Bool) (animThrows : List Char → Option Thrown) :
    AppState → List FileDiff → AppState × Option Thrown
  | st, [] => (st, none)
  | st, d :: rest =>
    match st.files.find? (fun f => decide (f.name = d.fileName)) with
    | none => applyDiffs hasEditor animThrows st rest
    | some fileToUpdate =>
      let st1 := setActiveFile st fileToUpdate
      if hasEditor then
        let st2 := { st1 with
          animationLog := st1.animationLog ++ [(fileToUpdate.name, d.after)] }
        match animThrows d.fileName with
        | some e => (st2, some e)
        | none =>
          applyDiffs hasEditor animThrows (updateFileContent st2 d.fileName d.after) rest
      else
        applyDiffs hasEditor animThrows (updateFileContent st1 d.fileName d.after) rest

/-- The `finally` block of `askAI`. -/
def askAiFinally (st : AppState) : AppState :=
  { st with isAiLoading := false, isAiApplyingEdits := false }

/-- The note appended to the explanation when no code change was proposed. -/
def noChangesNote : List Char := "\n\n(Изменений в коде не предложено)".toList

/-- `askAI()`: bail out on a blank prompt; reset the AI pane state; await
the collaborator call (`call` is its outcome — `Except.error` models the
call rejecting); on success build the queue and, when non-empty, switch to
applying mode and run the per-file loop; set the explanation (annotated when
the queue was empty); any thrown value lands in the `catch` which stores the
single user-visible error string; the `finally` clears both busy flags. -/
def askAI (hasEditor : Bool) (animThrows : List Char → Option Thrown)
    (call : Except Thrown AiResponse) (st : AppState) : AppState :=
  if jsTrim st.aiPrompt = [] then st
  else
    let st := { st with
      isAiLoading := true, isAiApplyingEdits := false,
      aiExplanation := [], aiError := [] }
    match call with
    | .error e => askAiFinally { st with aiError := errText e }
    | .ok resp =>
      let diffs := buildDiffs resp st.files
      if diffs = [] then
        askAiFinally { st with aiExplanation := resp.explanation ++ noChangesNote }
      else
        let st := { st with isAiLoading := false, isAiApplyingEdits := true }
        match applyDiffs hasEditor animThrows st diffs with
        | (st1, none) => askAiFinally { st1 with aiExplanation := resp.explanation }
        | (st1, some e) => askAiFinally { st1 with aiError := errText e }

/-! ## State invariant and concrete fixtures -/

/-- The data-model invariant on the file-management state: every open tab's
name exists in the file collection, and the active file (when set) is one of
the open tabs (identity = name). -/
def invHolds (st : AppState) : Bool :=
  st.openFiles.all (fun f => st.files.any (fun g => decide (g.name = f.name))) &&
  (match st.activeFile with
   | none => true
   | some a => st.openFiles.any (fun f => decide (f.name = a.name)))

/-- An `AppState` with empty/default fields, used as the base of the
concrete test states below. -/
def baseState : AppState :=
  { files := [], openFiles := [], activeFile := none, consoleLogs := []
    previewWindow := 0, previewVersion := 0, aiPrompt := [], aiError := []
    aiExplanation := [], isAiLoading := false, isAiApplyingEdits := false
    isCreatingFile := false, newFileName := [], animationLog := [] }

/-- The default html file name with sample content. -/
def fileHtml : File :=
  { name := "index.html".toList, content := "H".toList, language := .html }

/-- The default css file name with sample content. -/
def fileCss : File :=
  { name := "style.css".toList, content := "C".toList, language := .css }

/-- The default js file name with sample content. -/
def fileJs : File :=
  { name := "script.js".toList, content := "J".toList, language := .js }

/-- A file whose name has an unsupported extension (such a record can only
enter the collection through persisted storage, which is parsed without
validation). -/
def fileExe : File :=
  { name := "data.exe".toList, content := "old".toList, language := .txt }

/-- A sample console log entry. -/
def logEntry0 : ConsoleLog :=
  { kind := .warn, data := [SerializedArg.json "x".toList]
    timestamp := "2024-01-01T00:00:00Z".toList }

/-- A concrete app state with two files, one open tab, used by witnesses. -/
def stW : AppState :=
  { baseState with
    files := [fileHtml, fileCss]
    openFiles := [fileHtml]
    activeFile := some fileHtml }

/-- A concrete app state whose collection holds the open `data.exe` file. -/
def stExe : AppState :=
  { baseState with
    files := [fileExe]
    openFiles := [fileExe]
    activeFile := some fileExe }

/-- An animation oracle under which no animated apply rejects. -/
def noThrow : List Char → Option Thrown := fun _ => none

/-- An animation oracle under which applying to `index.html` rejects with an
`Error` whose message is `boom`, and every other apply resolves. -/
def twBoom : List Char → Option Thrown := fun n =>
  if n = "index.html".toList then some { isError := true, message := "boom".toList }
  else none

/-- The thrown error used by the `twBoom` oracle. -/
def eBoom : Thrown := { isError := true, message := "boom".toList }

/-- A concrete app state with the three default files and a non-blank prompt. -/
def stC5 : AppState :=
  { baseState with aiPrompt := "p".toList, files := [fileHtml, fileCss, fileJs] }

/-- A concrete app state with html and css files and a non-blank prompt. -/
def stC6 : AppState :=
  { baseState with aiPrompt := "p".toList, files := [fileHtml, fileCss] }

/-- An edit proposal carrying only a changed css patch. -/
def respCssOnly : AiResponse :=
  { explanation := "E".toList, html := none, css := some "C2".toList, js := none }

/-- An edit proposal whose only patch is the empty css string. -/
def respCssEmpty : AiResponse :=
  { explanation := "E".toList, html := none, css := some [], js := none }

/-- An edit proposal carrying changed html and css patches. -/
def respBoth : AiResponse :=
  { explanation := "E".toList, html := some "H2".toList
    css := some "C2".toList, js := none }

/-- The queued job for the html patch of `respBoth`. -/
def dHtml : FileDiff := { fileName := "index.html".toList, after := "H2".toList }

/-- The queued job for the css patch of `respBoth`. -/
def dCss : FileDiff := { fileName := "style.css".toList, after := "C2".toList }

/-! ## Diff engine and typing lemmas -/

theorem commonPrefixLen_le_left : ∀ a b : List Char, commonPrefixLen a b ≤ a.length := by
  intro a
  induction a with
  | nil => intro b; cases b <;> simp [commonPrefixLen]
  | cons x xs ih =>
    intro b
    cases b with
    | nil => simp [commonPrefixLen]
    | cons y ys =>
      simp only [commonPrefixLen, List.length_cons]
      split
      · have := ih ys
        omega
      · omega

theorem commonPrefixLen_le_right : ∀ a b : List Char, commonPrefixLen a b ≤ b.length := by
  intro a
  induction a with
  | nil => intro b; cases b <;> simp [commonPrefixLen]
  | cons x xs ih =>
    intro b
    cases b with
    | nil => simp [commonPrefixLen]
    | cons y ys =>
      simp only [commonPrefixLen, List.length_cons]
      split
      · have := ih ys
        omega
      · omega

theorem commonPrefixLen_take_eq :
    ∀ a b : List Char, a.take (commonPrefixLen a b) = b.take (commonPrefixLen a b) := by
  intro a
  induction a with
  | nil => intro b; cases b <;> simp [commonPrefixLen]
  | cons x xs ih =>
    intro b
    cases b with
    | nil => simp [commonPrefixLen]
    | cons y ys =>
      simp only [commonPrefixLen]
      split
      · next hxy =>
        simp [List.take_succ_cons, hxy, ih ys]
      · simp

theorem suffixScan_le (old new : List Char) (p : Nat) :
    ∀ n s, old.length - p - s ≤ n → s ≤ old.length - p → s ≤ new.length - p →
      suffixScan old new p s ≤ old.length - p ∧ suffixScan old new p s ≤ new.length - p := by
  intro n
  induction n with
  | zero =>
    intro s hn h1 h2
    rw [suffixScan]
    split
    · next h => omega
    · exact ⟨h1, h2⟩
  | succ n ih =>
    intro s hn h1 h2
    rw [suffixScan]
    split
    · next h => exact ih (s + 1) (by omega) (by omega) (by omega)
    · exact ⟨h1, h2⟩

theorem suffixScan_match (old new : List Char) (p : Nat) :
    ∀ n s, old.length - p - s ≤ n →
      ∀ i, s ≤ i → i < suffixScan old new p s →
        old.getD (old.length - 1 - i) 'a' = new.getD (new.length - 1 - i) 'a' := by
  intro n
  induction n with
  | zero =>
    intro s hn i hsi hir
    rw [suffixScan] at hir
    split at hir
    · next h => omega
    · omega
  | succ n ih =>
    intro s hn i hsi hir
    rw [suffixScan] at hir
    split at hir
    · next h =>
      rcases Nat.eq_or_lt_of_le hsi with heq | hlt
      · subst heq
        exact h.2.2
      · exact ih (s + 1) (by omega) i hlt hir
    · omega

/-- If the last `s` characters of `a` and `b` agree pointwise then the final
segments of length `s` are equal as lists. -/
theorem drop_eq_of_rev_match (a b : List Char) (s : Nat)
    (ha : s ≤ a.length) (hb : s ≤ b.length)
    (h : ∀ i, i < s → a.getD (a.length - 1 - i) 'a' = b.getD (b.length - 1 - i) 'a') :
    a.drop (a.length - s) = b.drop (b.length - s) := by
  apply List.ext_getElem
  · simp [List.length_drop]
    omega
  · intro j hj1 hj2
    simp only [List.length_drop] at hj1
    have hja : a.length - s + j < a.length := by omega
    have hjb : b.length - s + j < b.length := by omega
    rw [List.getElem_drop, List.getElem_drop]
    have hi := h (s - 1 - j) (by omega)
    have e1 : a.length - 1 - (s - 1 - j) = a.length - s + j := by omega
    have e2 : b.length - 1 - (s - 1 - j) = b.length - s + j := by omega
    rw [e1, e2] at hi
    rw [List.getD_eq_getElem a 'a' hja, List.getD_eq_getElem b 'a' hjb] at hi
    exact hi

/-- Core correctness of the diff: the prefix/suffix lengths never overlap
(`p + s ≤ min`) and splicing `replacementText` into `old`'s middle segment
rebuilds `new` exactly. -/
theorem diff_spec (old new : List Char) :
    (diff old new).prefixLength + (diff old new).suffixLength ≤
        min old.length new.length ∧
    old.take (diff old new).prefixLength ++ (diff old new).replacementText ++
        old.drop (old.length - (diff old new).suffixLength) = new := by
  set p := commonPrefixLen old new with hp
  set s := diffSuffixLen old new p with hs
  have hp1 : p ≤ old.length := commonPrefixLen_le_left old new
  have hp2 : p ≤ new.length := commonPrefixLen_le_right old new
  have hss : suffixScan old new p 0 = s := by rw [hs, diffSuffixLen]
  have hcap := suffixScan_le old new p (old.length - p) 0 (by omega) (by omega) (by omega)
  rw [hss] at hcap
  have hmatch := suffixScan_match old new p (old.length - p) 0 (by omega)
  rw [hss] at hmatch
  have hbound : p + s ≤ min old.length new.length := by omega
  refine ⟨by simpa [diff, ← hp, ← hs] using hbound, ?_⟩
  have htake : old.take p = new.take p := commonPrefixLen_take_eq old new
  have hdrop : old.drop (old.length - s) = new.drop (new.length - s) :=
    drop_eq_of_rev_match old new s (by omega) (by omega)
      (fun i hi => hmatch i (Nat.zero_le i) hi)
  simp only [diff, ← hp, ← hs]
  rw [htake, hdrop]
  have h1 : new.take p = (new.take (new.length - s)).take p := by
    rw [List.take_take]
    congr 1
    omega
  rw [h1, List.take_append_drop]
  exact List.take_append_drop _ _

theorem typeChars_eq : ∀ (cs l : List Char) (i : Nat), i ≤ l.length →
    typeChars l i cs = l.take i ++ cs ++ l.drop i := by
  intro cs
  induction cs with
  | nil => intro l i h; simp [typeChars]
  | cons c cs ih =>
    intro l i h
    rw [typeChars, ih (insertAt l i c) (i + 1) (by simp [insertAt]; omega)]
    simp only [insertAt]
    rw [List.take_append_eq_append_take, List.drop_append_eq_append_drop]
    have t1 : (l.take i ++ [c]).take (i + 1) = l.take i ++ [c] :=
      List.take_of_length_le (by simp)
    have t2 : (l.take i ++ [c]).drop (i + 1) = [] :=
      List.drop_of_length_le (by simp)
    rw [t1, t2]
    have hm : i ⊓ l.length = i := by omega
    simp [hm]

/-- On the happy path with no concurrent interference, the animation body
itself already rebuilds exactly `newContent` (deletion of the middle range
followed by typed insertion of the replacement text). -/
theorem happyPathBody_text (newContent : List Char) (st : EditorState) :
    happyPathBody newContent st = .completed
      { st with text := newContent } ∨
    happyPathBody newContent st = .completed st ∧ st.text = newContent := by
  by_cases h : st.text = newContent
  · right
    simp [happyPathBody, h]
  · left
    simp only [happyPathBody, h, if_false]
    have hs := diff_spec st.text newContent
    have hp1 := commonPrefixLen_le_left st.text newContent
    have htc : typeChars
        (st.text.take (diff st.text newContent).prefixLength ++
          st.text.drop (st.text.length - (diff st.text newContent).suffixLength))
        (diff st.text newContent).prefixLength
        (diff st.text newContent).replacementText =
        st.text.take (diff st.text newContent).prefixLength ++
          (diff st.text newContent).replacementText ++
          st.text.drop (st.text.length - (diff st.text newContent).suffixLength) := by
      rw [typeChars_eq]
      · rw [List.take_append_eq_append_take, List.drop_append_eq_append_drop]
        have hlen : (st.text.take (diff st.text newContent).prefixLength).length =
            (diff st.text newContent).prefixLength := by
          simp [diff]
          exact hp1
        simp [hlen, List.take_take]
      · simp [diff]
        omega
    rw [htc, hs.2]

/-! ## Claim theorems -/

/-- C1: For every pair of strings `old` and `new`, the diff computed by the
patch engine (longest-common-prefix length `p`; longest-common-suffix length
`s` scanned over at most `len - p` remaining characters on each side;
`replacementText = new[p .. len(new)-s]`) satisfies
`p + s ≤ min (len old) (len new)`, and replacing `old`'s middle segment
`old[p .. len(old)-s]` with `replacementText` reconstructs exactly `new`. -/
theorem diff_reconstructs_target (old new : List Char) :
    (diff old new).prefixLength + (diff old new).suffixLength ≤
        min old.length new.length ∧
    old.take (diff old new).prefixLength ++ (diff old new).replacementText ++
        old.drop (old.length - (diff old new).suffixLength) = new :=
  diff_spec old new

/-- C2: For every initial buffer text and target `newContent`, whenever
`applyChangesWithAnimation(newContent)` settles — for every behavior of the
`try` body, including one that threw at a delete/select/type step or saw the
buffer concurrently mutated — the `isAnimating` flag is cleared and the
buffer's final full text equals `newContent` exactly. -/
theorem applyChanges_always_clears_flag_and_syncs
    (body : EditorState → AnimationOutcome) (newContent : List Char)
    (st : EditorState) :
    (applyChangesWithAnimation body newContent st).isAnimating = false ∧
    (applyChangesWithAnimation body newContent st).text = newContent := by
  unfold applyChangesWithAnimation
  cases body { st with isAnimating := true } <;>
    · simp only [animationFinally]
      split <;> simp_all

/-- C3: an incoming window message whose source is exactly the preview
iframe's content window and whose data carries the `CONSOLE_LOG` kind
appends exactly its payload (one new entry) to the console log store; a
message from any other source leaves the whole state unchanged. -/
theorem onMessage_sender_verified_relay (st : AppState) (ev : HostMessageEvent) :
    (ev.source = st.previewWindow → ev.data.msgType = CONSOLE_LOG_KIND →
      onMessage st ev =
        { st with consoleLogs := st.consoleLogs ++ [ev.data.payload] }) ∧
    (ev.source ≠ st.previewWindow → onMessage st ev = st) := by
  constructor
  · intro h1 h2
    simp [onMessage, h1, h2]
  · intro h1
    simp [onMessage, h1]

/-- Witness for C3: a concrete `CONSOLE_LOG` message from the preview window
(identity 1) is appended; the identical message from window 2 is ignored. -/
theorem onMessage_sender_verified_relay_witness :
    onMessage { baseState with previewWindow := 1 }
        { source := 1, data := { msgType := CONSOLE_LOG_KIND, payload := logEntry0 } } =
      { baseState with previewWindow := 1, consoleLogs := [logEntry0] } ∧
    onMessage { baseState with previewWindow := 1 }
        { source := 2, data := { msgType := CONSOLE_LOG_KIND, payload := logEntry0 } } =
      { baseState with previewWindow := 1 } :=
  ⟨(onMessage_sender_verified_relay { baseState with previewWindow := 1 }
      { source := 1, data := { msgType := CONSOLE_LOG_KIND, payload := logEntry0 } }).1
        rfl rfl,
   (onMessage_sender_verified_relay { baseState with previewWindow := 1 }
      { source := 2, data := { msgType := CONSOLE_LOG_KIND, payload := logEntry0 } }).2
        (by decide)⟩

/-- C7: every argument of a wrapped console call that is an `Error` instance
is serialized to exactly the object carrying the marker `true`, the error's
message and its stack, at the same position of the posted payload's data. -/
theorem postLog_serializes_error_args (kind : LogKind) (args : List SandboxValue)
    (ts : List Char) (i : Nat) (m s : List Char)
    (h : args[i]? = some (.errorVal m s)) :
    ((postLog kind args ts).payload.data)[i]? =
      some (SerializedArg.errObj true m s) := by
  simp [postLog, h, serializeArg]

/-- Witness for C7 at a concrete argument list (a string argument followed
by an `Error`). -/
theorem postLog_serializes_error_args_witness :
    ((postLog .error [SandboxValue.jsonVal "x".toList,
        SandboxValue.errorVal "boom".toList "stack".toList]
        "2024-01-01T00:00:00Z".toList).payload.data)[1]? =
      some (SerializedArg.errObj true "boom".toList "stack".toList) :=
  postLog_serializes_error_args .error
    [SandboxValue.jsonVal "x".toList,
     SandboxValue.errorVal "boom".toList "stack".toList]
    "2024-01-01T00:00:00Z".toList 1 "boom".toList "stack".toList (by rfl)

/-- C8 (amended): the console log store is cleared only by the explicit
user-requested refresh; a file-content edit re-emits the `files` signal
(debounced sandbox rebuild, counted by `previewVersion`) while leaving the
log store unchanged, so a freshly rebuilt sandbox can coexist with log
entries of the previous execution context. -/
theorem log_clearing_policy (st : AppState) (fileName newContent : List Char) :
    (updateFileContent st fileName newContent).previewVersion =
        st.previewVersion + 1 ∧
    (updateFileContent st fileName newContent).consoleLogs = st.consoleLogs ∧
    (forcePreviewRefresh st).previewVersion = st.previewVersion + 1 ∧
    (forcePreviewRefresh st).consoleLogs = [] ∧
    (forcePreviewRefresh st).files = st.files :=
  ⟨rfl, rfl, rfl, rfl, rfl⟩

/-- Counterexample to C8 as stated: a concrete state with one existing log
entry; editing a file's content triggers the (debounced) sandbox rebuild —
the `files` signal re-emits — yet the log store still holds the old entry,
so the rebuild did not clear the log. -/
theorem rebuild_without_log_clear_counterexample :
    (updateFileContent
        { baseState with files := [fileHtml], consoleLogs := [logEntry0] }
        "index.html".toList "X".toList).previewVersion =
      baseState.previewVersion + 1 ∧
    (updateFileContent
        { baseState with files := [fileHtml], consoleLogs := [logEntry0] }
        "index.html".toList "X".toList).consoleLogs = [logEntry0] ∧
    [logEntry0] ≠ ([] : List ConsoleLog) := by
  refine ⟨rfl, rfl, by decide⟩

/-- C10: `updateFileContent(fileName, newContent)` rewrites only the named
file's record in the collection (every other record is mapped to itself),
and does not update `openFiles` or `activeFile` at all — they keep the
previous `File` objects with the pre-edit content. -/
theorem updateFileContent_frame (st : AppState) (fileName newContent : List Char) :
    (updateFileContent st fileName newContent).openFiles = st.openFiles ∧
    (updateFileContent st fileName newContent).activeFile = st.activeFile ∧
    (updateFileContent st fileName newContent).files =
      st.files.map (fun f =>
        if f.name = fileName then { f with content := newContent } else f) :=
  ⟨rfl, rfl, rfl⟩

/-- C4: if the collaborator call of `askAI` rejects, the whole proposal is
aborted before any file is touched — the file collection, the open tabs, the
active file, the animation journal and the preview pipeline are all
unchanged — and exactly the single user-visible error string for the thrown
value is surfaced, with both busy flags cleared. -/
theorem askAI_call_error_aborts_cleanly (hasEditor : Bool)
    (animThrows : List Char → Option Thrown) (e : Thrown) (st : AppState)
    (hprompt : jsTrim st.aiPrompt ≠ []) :
    (askAI hasEditor animThrows (.error e) st).files = st.files ∧
    (askAI hasEditor animThrows (.error e) st).openFiles = st.openFiles ∧
    (askAI hasEditor animThrows (.error e) st).activeFile = st.activeFile ∧
    (askAI hasEditor animThrows (.error e) st).animationLog = st.animationLog ∧
    (askAI hasEditor animThrows (.error e) st).previewVersion = st.previewVersion ∧
    (askAI hasEditor animThrows (.error e) st).aiError = errText e ∧
    (askAI hasEditor animThrows (.error e) st).isAiLoading = false ∧
    (askAI hasEditor animThrows (.error e) st).isAiApplyingEdits = false := by
  simp [askAI, hprompt, askAiFinally]

/-- Witness for C4 at a concrete state and thrown error. -/
theorem askAI_call_error_aborts_cleanly_witness :
    (askAI true noThrow (.error { isError := true, message := "boom".toList })
        { baseState with aiPrompt := "p".toList }).files = baseState.files ∧
    (askAI true noThrow (.error { isError := true, message := "boom".toList })
        { baseState with aiPrompt := "p".toList }).animationLog = baseState.animationLog ∧
    (askAI true noThrow (.error { isError := true, message := "boom".toList })
        { baseState with aiPrompt := "p".toList }).aiError =
      errText { isError := true, message := "boom".toList } := by
  have h := askAI_call_error_aborts_cleanly true noThrow
    { isError := true, message := "boom".toList }
    { baseState with aiPrompt := "p".toList } (by decide)
  exact ⟨h.1, h.2.2.2.1, h.2.2.2.2.2.1⟩

/-! ## Invariant helper lemmas -/

@[simp] theorem updateFileContent_openFiles (st : AppState) (n c : List Char) :
    (updateFileContent st n c).openFiles = st.openFiles := rfl

@[simp] theorem updateFileContent_activeFile (st : AppState) (n c : List Char) :
    (updateFileContent st n c).activeFile = st.activeFile := rfl

@[simp] theorem updateFileContent_animationLog (st : AppState) (n c : List Char) :
    (updateFileContent st n c).animationLog = st.animationLog := rfl

@[simp] theorem updateFileContent_files (st : AppState) (n c : List Char) :
    (updateFileContent st n c).files =
      st.files.map (fun f => if f.name = n then { f with content := c } else f) := rfl

@[simp] theorem setActiveFile_files (st : AppState) (f : File) :
    (setActiveFile st f).files = st.files := by
  unfold setActiveFile
  split <;> rfl

@[simp] theorem setActiveFile_activeFile (st : AppState) (f : File) :
    (setActiveFile st f).activeFile = some f := rfl

@[simp] theorem setActiveFile_animationLog (st : AppState) (f : File) :
    (setActiveFile st f).animationLog = st.animationLog := by
  unfold setActiveFile
  split <;> rfl

theorem setActiveFile_already_open (st : AppState) (f : File)
    (h : st.openFiles.any (fun g => decide (g.name = f.name)) = true) :
    setActiveFile st f = { st with activeFile := some f } := by
  simp [setActiveFile, h]

theorem setActiveFile_newtab (st : AppState) (f : File)
    (h : st.openFiles.any (fun g => decide (g.name = f.name)) = false) :
    setActiveFile st f =
      { st with openFiles := st.openFiles ++ [f], activeFile := some f } := by
  simp [setActiveFile, h]

/-- `invHolds` restated in terms of membership. -/
theorem invHolds_iff (st : AppState) :
    invHolds st = true ↔
      ((∀ f ∈ st.openFiles, ∃ g ∈ st.files, g.name = f.name) ∧
       (∀ a, st.activeFile = some a → ∃ f ∈ st.openFiles, f.name = a.name)) := by
  cases h : st.activeFile <;>
    simp [invHolds, h, List.all_eq_true, List.any_eq_true]

theorem findIdx?_isSome_of_any (l : List File) (p : File → Bool)
    (h : l.any p = true) : (l.findIdx? p).isSome := by
  cases hf : l.findIdx? p
  · rw [List.any_eq_true] at h
    obtain ⟨x, hx, hpx⟩ := h
    have := List.findIdx?_eq_none_iff.mp hf x hx
    simp_all
  · simp

theorem setActiveFile_inv (st : AppState) (f : File)
    (hInv : invHolds st = true) (hf : ∃ g ∈ st.files, g.name = f.name) :
    invHolds (setActiveFile st f) = true := by
  rw [invHolds_iff] at hInv
  obtain ⟨h1, h2⟩ := hInv
  cases hany : st.openFiles.any (fun g => decide (g.name = f.name))
  · rw [setActiveFile_newtab st f hany, invHolds_iff]
    constructor
    · intro g hg
      rcases List.mem_append.mp hg with hg | hg
      · exact h1 g hg
      · rw [List.mem_singleton] at hg
        subst hg
        exact hf
    · intro a ha
      simp only [Option.some.injEq] at ha
      subst ha
      exact ⟨f, List.mem_append.mpr (Or.inr (List.mem_singleton.mpr rfl)), rfl⟩
  · rw [setActiveFile_already_open st f hany, invHolds_iff]
    constructor
    · intro g hg
      exact h1 g hg
    · intro a ha
      simp only [Option.some.injEq] at ha
      subst ha
      rw [List.any_eq_true] at hany
      obtain ⟨x, hx, hxname⟩ := hany
      simp only [decide_eq_true_eq] at hxname
      exact ⟨x, hx, hxname⟩

theorem closeFile_files (st : AppState) (fc : File) :
    (closeFile st fc).files = st.files := by
  unfold closeFile
  split
  · rfl
  · dsimp only
    split
    · split <;> rfl
    · rfl

theorem closeFile_removes_tab (st : AppState) (fc : File)
    (hfound : (st.openFiles.findIdx? (fun f => decide (f.name = fc.name))).isSome) :
    ∀ g ∈ (closeFile st fc).openFiles, g.name ≠ fc.name := by
  unfold closeFile
  split
  · next heq => rw [heq] at hfound; simp at hfound
  · intro g hg
    have hg' : g ∈ st.openFiles.filter (fun f => decide (f.name ≠ fc.name)) := hg
    rw [List.mem_filter] at hg'
    simpa using hg'.2

theorem closeFile_inv (st : AppState) (fc : File) (hInv : invHolds st = true) :
    invHolds (closeFile st fc) = true := by
  rw [invHolds_iff] at hInv
  obtain ⟨h1, h2⟩ := hInv
  unfold closeFile
  split
  · rw [invHolds_iff]
    exact ⟨h1, h2⟩
  · next ci hci =>
    rw [invHolds_iff]
    dsimp only
    split
    · next hactive =>
      split
      · next hempty =>
        constructor
        · intro g hg
          exact h1 g (List.mem_of_mem_filter hg)
        · intro a ha
          simp at ha
      · next hnonempty =>
        constructor
        · intro g hg
          exact h1 g (List.mem_of_mem_filter hg)
        · intro a ha
          simp only [Option.some.injEq] at ha
          subst ha
          have hlen : 0 < (st.openFiles.filter
              (fun f => decide (f.name ≠ fc.name))).length := by
            cases hc : st.openFiles.filter (fun f => decide (f.name ≠ fc.name)) with
            | nil => exact absurd hc hnonempty
            | cons x xs => simp
          have hidx : min ci ((st.openFiles.filter
              (fun f => decide (f.name ≠ fc.name))).length - 1) <
              (st.openFiles.filter (fun f => decide (f.name ≠ fc.name))).length := by
            omega
          rw [List.getD_eq_getElem _ emptyFile hidx]
          exact ⟨_, List.getElem_mem hidx, rfl⟩
    · next hactive =>
      constructor
      · intro g hg
        exact h1 g (List.mem_of_mem_filter hg)
      · intro a ha
        obtain ⟨f, hfmem, hfname⟩ := h2 a ha
        refine ⟨f, ?_, hfname⟩
        rw [List.mem_filter]
        refine ⟨hfmem, ?_⟩
        simp only [ne_eq, decide_not, Bool.not_eq_eq_eq_not, Bool.not_true,
          decide_eq_false_iff_not]
        intro hcontra
        apply hactive
        rw [ha]
        simp only [Option.map_some']
        rw [← hfname, hcontra]

theorem updateFileContent_inv (st : AppState) (n c : List Char)
    (hInv : invHolds st = true) :
    invHolds (updateFileContent st n c) = true := by
  rw [invHolds_iff] at hInv
  obtain ⟨h1, h2⟩ := hInv
  rw [invHolds_iff]
  constructor
  · intro g hg
    rw [updateFileContent_openFiles] at hg
    obtain ⟨w, hw, hwname⟩ := h1 g hg
    rw [updateFileContent_files]
    refine ⟨if w.name = n then { w with content := c } else w,
      List.mem_map_of_mem _ hw, ?_⟩
    split <;> simp_all
  · intro a ha
    rw [updateFileContent_activeFile] at ha
    rw [updateFileContent_openFiles]
    exact h2 a ha

theorem updateActiveFileContent_inv (st : AppState) (c : List Char)
    (hInv : invHolds st = true) :
    invHolds (updateActiveFileContent st c) = true := by
  unfold updateActiveFileContent
  split
  · exact updateFileContent_inv st _ c hInv
  · exact hInv

theorem deleteFile_openFiles_clean (st : AppState) (fd : File) :
    ∀ g ∈ (deleteFile st fd true).openFiles, g.name ≠ fd.name := by
  unfold deleteFile
  rw [if_neg (by simp)]
  dsimp only
  split
  · next hany =>
    intro g hg
    exact closeFile_removes_tab st fd
      (findIdx?_isSome_of_any _ _ hany) g hg
  · next hany =>
    intro g hg
    intro hcontra
    apply hany
    rw [List.any_eq_true]
    exact ⟨g, hg, by simp [hcontra]⟩

theorem deleteFile_files_clean (st : AppState) (fd : File) :
    ∀ g ∈ (deleteFile st fd true).files, g.name ≠ fd.name := by
  unfold deleteFile
  rw [if_neg (by simp)]
  dsimp only
  intro g hg
  have hg' : g ∈ List.filter (fun f => decide (f.name ≠ fd.name)) _ := hg
  rw [List.mem_filter] at hg'
  simpa using hg'.2

theorem deleteFile_inv (st : AppState) (fd : File) (c : Bool)
    (hInv : invHolds st = true) :
    invHolds (deleteFile st fd c) = true := by
  unfold deleteFile
  split
  · exact hInv
  · next hc =>
    have hc' : c = true := not_not.mp hc
    subst hc'
    dsimp only
    have hstep : ∀ st1 : AppState, invHolds st1 = true →
        (∀ g ∈ st1.openFiles, g.name ≠ fd.name) →
        invHolds { st1 with
          files := st1.files.filter (fun f => decide (f.name ≠ fd.name))
          previewVersion := st1.previewVersion + 1 } = true := by
      intro st1 hInv1 hno
      rw [invHolds_iff] at hInv1
      obtain ⟨h1, h2⟩ := hInv1
      rw [invHolds_iff]
      constructor
      · intro g hg
        obtain ⟨w, hw, hwname⟩ := h1 g hg
        refine ⟨w, ?_, hwname⟩
        rw [List.mem_filter]
        refine ⟨hw, ?_⟩
        simp only [ne_eq, decide_not, Bool.not_eq_eq_eq_not, Bool.not_true,
          decide_eq_false_iff_not]
        rw [hwname]
        exact hno g hg
      · intro a ha
        exact h2 a ha
    split
    · next hany =>
      exact hstep (closeFile st fd) (closeFile_inv st fd hInv)
        (closeFile_removes_tab st fd (findIdx?_isSome_of_any _ _ hany))
    · next hany =>
      refine hstep st hInv ?_
      intro g hg hcontra
      apply hany
      rw [List.any_eq_true]
      exact ⟨g, hg, by simp [hcontra]⟩

theorem confirmCreateFile_inv (st : AppState) (hInv : invHolds st = true) :
    invHolds (confirmCreateFile st) = true := by
  unfold confirmCreateFile
  dsimp only
  split
  · exact hInv
  · split
    · exact hInv
    · split
      · exact hInv
      · apply setActiveFile_inv
        · rw [invHolds_iff] at hInv
          obtain ⟨h1, h2⟩ := hInv
          rw [invHolds_iff]
          constructor
          · intro g hg
            obtain ⟨w, hw, hwname⟩ := h1 g hg
            exact ⟨w, List.mem_append.mpr (Or.inl hw), hwname⟩
          · intro a ha
            exact h2 a ha
        · exact ⟨_, List.mem_append.mpr (Or.inr (List.mem_singleton.mpr rfl)), rfl⟩

theorem uploadOne_inv (st : AppState) (name content : List Char) (b : Bool)
    (hInv : invHolds st = true)
    (hsafe : st.files.any (fun f => decide (f.name = name)) = true → b = true →
      (parseLang (lastDotSegment name)).isSome) :
    invHolds (uploadOne st name content b) = true := by
  unfold uploadOne
  dsimp only
  split
  · exact hInv
  · next hcol =>
    have hb : st.files.any (fun f => decide (f.name = name)) = true → b = true := by
      intro hc
      cases b
      · exact absurd ⟨hc, by simp⟩ hcol
      · rfl
    split
    · next hnone =>
      cases hc : st.files.any (fun f => decide (f.name = name))
      · rw [if_neg (by simp [hc])]
        exact hInv
      · exfalso
        have := hsafe hc (hb hc)
        rw [hnone] at this
        simp at this
    · next lang hsome =>
      apply setActiveFile_inv
      · rw [invHolds_iff] at hInv
        obtain ⟨h1, h2⟩ := hInv
        rw [invHolds_iff]
        constructor
        · intro g hg
          have hg' : g ∈ st.openFiles := by
            split at hg <;> exact hg
          obtain ⟨w, hw, hwname⟩ := h1 g hg'
          by_cases hwn : w.name = name
          · refine ⟨{ name := name, content := content, language := lang }, ?_, ?_⟩
            · exact List.mem_append.mpr (Or.inr (List.mem_singleton.mpr rfl))
            · rw [← hwn, hwname]
          · refine ⟨w, List.mem_append.mpr (Or.inl ?_), hwname⟩
            split
            · rw [List.mem_filter]
              exact ⟨hw, by simpa using hwn⟩
            · exact hw
        · intro a ha
          have ha' : st.activeFile = some a := by
            split at ha <;> exact ha
          obtain ⟨f, hf, hfname⟩ := h2 a ha'
          refine ⟨f, ?_, hfname⟩
          split <;> exact hf
      · exact ⟨_, List.mem_append.mpr (Or.inr (List.mem_singleton.mpr rfl)), rfl⟩

/-- C9 (amended): every file-management operation — activating/opening a
file of the collection, closing a tab, creating a file, deleting a file,
editing content — preserves the state invariant (`invHolds`): each open tab's
name exists in the file collection and the active file is `null` or one of
the open tabs; deleting a file also removes its open-tab reference and its
collection record.  Uploading preserves the invariant except on one path:
when the uploaded name collides with an existing file, the overwrite is
confirmed, and the extension is unsupported, the existing record is deleted
before the extension check aborts, which can orphan an open tab (see the
counterexample); the carve-out hypothesis excludes exactly that path. -/
theorem fileOps_preserve_open_inv (st : AppState) (hInv : invHolds st = true) :
    (∀ f ∈ st.files, invHolds (setActiveFile st f) = true) ∧
    (∀ f, invHolds (closeFile st f) = true) ∧
    invHolds (confirmCreateFile st) = true ∧
    (∀ f c, invHolds (deleteFile st f c) = true) ∧
    (∀ f, ∀ g ∈ (deleteFile st f true).openFiles, g.name ≠ f.name) ∧
    (∀ f, ∀ g ∈ (deleteFile st f true).files, g.name ≠ f.name) ∧
    (∀ n c, invHolds (updateFileContent st n c) = true) ∧
    (∀ c, invHolds (updateActiveFileContent st c) = true) ∧
    (∀ n c b, (st.files.any (fun f => decide (f.name = n)) = true → b = true →
        (parseLang (lastDotSegment n)).isSome) →
      invHolds (uploadOne st n c b) = true) := by
  refine ⟨?_, ?_, ?_, ?_, ?_, ?_, ?_, ?_, ?_⟩
  · intro f hf
    exact setActiveFile_inv st f hInv ⟨f, hf, rfl⟩
  · intro f
    exact closeFile_inv st f hInv
  · exact confirmCreateFile_inv st hInv
  · intro f c
    exact deleteFile_inv st f c hInv
  · intro f
    exact deleteFile_openFiles_clean st f
  · intro f
    exact deleteFile_files_clean st f
  · intro n c
    exact updateFileContent_inv st n c hInv
  · intro c
    exact updateActiveFileContent_inv st c hInv
  · intro n c b hsafe
    exact uploadOne_inv st n c b hInv hsafe

/-- Counterexample to C9 as stated: from an invariant-satisfying state whose
collection holds an open file named `data.exe` (reachable through persisted
storage, which is loaded without name validation), uploading a file named
`data.exe` with the overwrite confirmed deletes the record first and only
then rejects the unsupported extension, leaving the open tab pointing at a
name that no longer exists in the collection — the invariant is broken. -/
theorem upload_unsupported_overwrite_breaks_inv :
    invHolds stExe = true ∧
    invHolds (uploadOne stExe "data.exe".toList "new".toList true) = false := by
  decide

/-- Witness for C9 at a concrete two-file state with one open tab. -/
theorem fileOps_preserve_open_inv_witness :
    invHolds (setActiveFile stW fileCss) = true ∧
    invHolds (closeFile stW fileHtml) = true ∧
    invHolds (confirmCreateFile stW) = true ∧
    invHolds (deleteFile stW fileCss true) = true ∧
    invHolds (updateFileContent stW "index.html".toList "X".toList) = true ∧
    invHolds (uploadOne stW "readme.md".toList "M".toList false) = true := by
  have h := fileOps_preserve_open_inv stW (by decide)
  exact ⟨h.1 fileCss (by decide), h.2.1 fileHtml, h.2.2.1,
    h.2.2.2.1 fileCss true,
    h.2.2.2.2.2.2.1 "index.html".toList "X".toList,
    h.2.2.2.2.2.2.2.2 "readme.md".toList "M".toList false (by decide)⟩

/-! ## Orchestrator loop lemmas -/

theorem find?_name_of_nodup : ∀ (l : List File) (f : File),
    (l.map File.name).Nodup → f ∈ l →
    l.find? (fun g => decide (g.name = f.name)) = some f := by
  intro l
  induction l with
  | nil =>
    intro f _ hf
    simp at hf
  | cons a t ih =>
    intro f hnd hf
    rw [List.map_cons, List.nodup_cons] at hnd
    obtain ⟨hna, hndt⟩ := hnd
    rcases List.mem_cons.mp hf with rfl | hft
    · rw [List.find?_cons_of_pos _ (by simp)]
    · have hne : a.name ≠ f.name := by
        intro hcontra
        apply hna
        rw [hcontra]
        exact List.mem_map_of_mem File.name hft
      rw [List.find?_cons_of_neg _ (by simp [hne])]
      exact ih f hndt hft

theorem applyDiffs_cons_skip (hE : Bool) (tw : List Char → Option Thrown)
    (st : AppState) (d : FileDiff) (rest : List FileDiff)
    (hfind : st.files.find? (fun g => decide (g.name = d.fileName)) = none) :
    applyDiffs hE tw st (d :: rest) = applyDiffs hE tw st rest := by
  rw [applyDiffs, hfind]

theorem applyDiffs_cons_found_throw (tw : List Char → Option Thrown)
    (st : AppState) (d : FileDiff) (rest : List FileDiff) (f : File) (e : Thrown)
    (hfind : st.files.find? (fun g => decide (g.name = d.fileName)) = some f)
    (hthrow : tw d.fileName = some e) :
    applyDiffs true tw st (d :: rest) =
      ({ setActiveFile st f with
          animationLog := (setActiveFile st f).animationLog ++ [(f.name, d.after)] },
        some e) := by
  rw [applyDiffs, hfind]
  simp [hthrow]

theorem applyDiffs_cons_found_ok (tw : List Char → Option Thrown)
    (st : AppState) (d : FileDiff) (rest : List FileDiff) (f : File)
    (hfind : st.files.find? (fun g => decide (g.name = d.fileName)) = some f)
    (hthrow : tw d.fileName = none) :
    applyDiffs true tw st (d :: rest) =
      applyDiffs true tw
        (updateFileContent
          { setActiveFile st f with
            animationLog := (setActiveFile st f).animationLog ++ [(f.name, d.after)] }
          d.fileName d.after)
        rest := by
  rw [applyDiffs, hfind]
  simp [hthrow]

/-- Sequencing: when the first stretch of the queue rejects nowhere, running
the whole queue equals running the first stretch and then the remainder from
the resulting state. -/
theorem applyDiffs_append (tw : List Char → Option Thrown) :
    ∀ (ds1 : List FileDiff) (st : AppState) (ds2 : List FileDiff),
      (applyDiffs true tw st ds1).2 = none →
      applyDiffs true tw st (ds1 ++ ds2) =
        applyDiffs true tw (applyDiffs true tw st ds1).1 ds2 := by
  intro ds1
  induction ds1 with
  | nil =>
    intro st ds2 _
    rfl
  | cons d t ih =>
    intro st ds2 hok
    rw [List.cons_append]
    cases hfind : st.files.find? (fun g => decide (g.name = d.fileName)) with
    | none =>
      rw [applyDiffs_cons_skip true tw st d (t ++ ds2) hfind]
      rw [applyDiffs_cons_skip true tw st d t hfind] at hok ⊢
      exact ih st ds2 hok
    | some f =>
      cases hthrow : tw d.fileName with
      | some e =>
        rw [applyDiffs_cons_found_throw tw st d t f e hfind hthrow] at hok
        simp at hok
      | none =>
        rw [applyDiffs_cons_found_ok tw st d (t ++ ds2) f hfind hthrow]
        rw [applyDiffs_cons_found_ok tw st d t f hfind hthrow] at hok ⊢
        exact ih _ ds2 hok

/-- C6 (amended): inside the orchestrator's per-file loop, a rejection of one
file's animated apply propagates out of the loop (the loop body lives inside
`askAI`'s `try`): the failing file's content is not committed, the remaining
queued files are not attempted, and the files already applied before the
failure keep their new content (the resulting state is exactly the state
after the successful stretch, plus the activation and animation-journal entry
of the failing file). -/
theorem applyDiffs_throw_aborts (tw : List Char → Option Thrown)
    (st : AppState) (ds1 : List FileDiff) (d : FileDiff) (ds2 : List FileDiff)
    (f : File) (e : Thrown)
    (hok : (applyDiffs true tw st ds1).2 = none)
    (hfind : (applyDiffs true tw st ds1).1.files.find?
        (fun g => decide (g.name = d.fileName)) = some f)
    (hthrow : tw d.fileName = some e) :
    applyDiffs true tw st (ds1 ++ d :: ds2) =
      ({ setActiveFile (applyDiffs true tw st ds1).1 f with
          animationLog :=
            (setActiveFile (applyDiffs true tw st ds1).1 f).animationLog
              ++ [(f.name, d.after)] },
        some e) := by
  rw [applyDiffs_append tw ds1 st (d :: ds2) hok]
  exact applyDiffs_cons_found_throw tw _ d ds2 f e hfind hthrow

/-- Witness for C6 at a concrete queue: an empty successful stretch, then the
html job whose apply rejects, then a css job that is never reached. -/
theorem applyDiffs_throw_aborts_witness :
    applyDiffs true twBoom stC6 ([] ++ dHtml :: [dCss]) =
      ({ setActiveFile (applyDiffs true twBoom stC6 []).1 fileHtml with
          animationLog :=
            (setActiveFile (applyDiffs true twBoom stC6 []).1 fileHtml).animationLog
              ++ [(fileHtml.name, dHtml.after)] },
        some eBoom) :=
  applyDiffs_throw_aborts twBoom stC6 [] dHtml [dCss] fileHtml eBoom rfl
    (by decide) (by decide)

/-- Counterexample to C6 as stated: with the html and css patches both
queued, the html apply rejecting leaves the file collection completely
unchanged (the css patch was never attempted and even the html content was
not committed), records only the html animation attempt, and surfaces the
error — the loop did not attempt the remaining file. -/
theorem askAI_per_file_error_is_fatal_counterexample :
    (askAI true twBoom (.ok respBoth) stC6).files = stC6.files ∧
    (askAI true twBoom (.ok respBoth) stC6).animationLog =
      [("index.html".toList, "H2".toList)] ∧
    (askAI true twBoom (.ok respBoth) stC6).aiError = "boom".toList ∧
    (fileCss ∈ (askAI true twBoom (.ok respBoth) stC6).files ∧
      fileCss.content ≠ "C2".toList) := by
  decide

/-- Evaluation of `askAI` when the queue holds exactly one job whose lookup
succeeds and whose animated apply resolves: the named record gets the new
content, one animation-journal entry is appended, and the explanation is
shown. -/
theorem askAI_ok_single (animThrows : List Char → Option Thrown)
    (resp : AiResponse) (st : AppState) (d : FileDiff) (f : File)
    (hprompt : jsTrim st.aiPrompt ≠ [])
    (hdiffs : buildDiffs resp st.files = [d])
    (hfind : st.files.find? (fun g => decide (g.name = d.fileName)) = some f)
    (hthrow : animThrows d.fileName = none) :
    (askAI true animThrows (.ok resp) st).files =
      st.files.map (fun g =>
        if g.name = d.fileName then { g with content := d.after } else g) ∧
    (askAI true animThrows (.ok resp) st).animationLog =
      st.animationLog ++ [(f.name, d.after)] ∧
    (askAI true animThrows (.ok resp) st).aiExplanation = resp.explanation := by
  unfold askAI
  rw [if_neg hprompt]
  dsimp only
  rw [hdiffs]
  rw [if_neg (by simp)]
  rw [applyDiffs_cons_found_ok animThrows ({ st with aiError := ([] : List Char), aiExplanation := ([] : List Char), isAiLoading := false, isAiApplyingEdits := true }) d [] f hfind hthrow]
  simp only [applyDiffs]
  simp [askAiFinally]

/-- C5 (amended): for an edit proposal whose only patch is a *non-empty*
css text `c` differing from the current css file's content (html and js
patches absent, empty, or unchanged), `askAI` animates and updates exactly
one file: the record named like the css file gets content `c` (every other
record is mapped to itself), exactly one animation-journal entry
`(cssName, c)` is appended, and every file that is not the css file — in
particular the html and js files — is still in the collection unchanged.
The non-emptiness restriction is forced by the truthiness guard
`response.css && response.css !== ...`, under which an empty-string css
patch is silently skipped (see the counterexample below). -/
theorem askAI_css_only_patch (animThrows : List Char → Option Thrown)
    (st : AppState) (resp : AiResponse) (cf : File) (c : List Char)
    (hprompt : jsTrim st.aiPrompt ≠ [])
    (hnd : (st.files.map File.name).Nodup)
    (hcss : st.files.find? (fun f => decide (f.language = EditorKind.css)) = some cf)
    (hc : resp.css = some c) (hc1 : c ≠ []) (hc2 : c ≠ cf.content)
    (hhtml : patchGuard resp.html
        (((st.files.find? (fun f => decide (f.language = EditorKind.html))).map
          File.content).getD []) = false)
    (hjs : patchGuard resp.js
        (((st.files.find? (fun f => decide (f.language = EditorKind.js))).map
          File.content).getD []) = false)
    (hthrow : animThrows cf.name = none) :
    (askAI true animThrows (.ok resp) st).files =
      st.files.map (fun f =>
        if f.name = cf.name then { f with content := c } else f) ∧
    (askAI true animThrows (.ok resp) st).animationLog =
      st.animationLog ++ [(cf.name, c)] ∧
    (∀ f ∈ st.files, f.name ≠ cf.name →
      f ∈ (askAI true animThrows (.ok resp) st).files) := by
  have hguard : patchGuard resp.css
      (((st.files.find? (fun f => decide (f.language = EditorKind.css))).map
        File.content).getD []) = true := by
    rw [hcss]
    simp [patchGuard, hc, hc1, hc2]
  have hdiffs : buildDiffs resp st.files = [{ fileName := cf.name, after := c }] := by
    simp only [buildDiffs]
    rw [hhtml, hjs, hguard, hcss]
    simp [hc]
  have hmem : cf ∈ st.files := List.mem_of_find?_eq_some hcss
  have hfind : st.files.find? (fun g => decide (g.name = cf.name)) = some cf :=
    find?_name_of_nodup st.files cf hnd hmem
  have h := askAI_ok_single animThrows resp st { fileName := cf.name, after := c } cf
    hprompt hdiffs hfind hthrow
  refine ⟨h.1, h.2.1, ?_⟩
  intro f hf hfname
  rw [h.1]
  have hid : (fun g : File =>
      if g.name = cf.name then { g with content := c } else g) f = f := by
    simp [hfname]
  have hm := List.mem_map_of_mem (fun g : File =>
      if g.name = cf.name then { g with content := c } else g) hf
  rw [hid] at hm
  exact hm

/-- Witness for C5: the three default files with a css-only proposal. -/
theorem askAI_css_only_patch_witness :
    (askAI true noThrow (.ok respCssOnly) stC5).files =
      stC5.files.map (fun f =>
        if f.name = fileCss.name then { f with content := "C2".toList } else f) ∧
    (askAI true noThrow (.ok respCssOnly) stC5).animationLog =
      stC5.animationLog ++ [(fileCss.name, "C2".toList)] := by
  have h := askAI_css_only_patch noThrow stC5 respCssOnly fileCss "C2".toList
    (by decide) (by decide) (by decide) rfl (by decide) (by decide)
    (by decide) (by decide) rfl
  exact ⟨h.1, h.2.1⟩

/-- Counterexample to C5 as stated: a proposal whose only patch is the
empty css string, while the current css file's content is non-empty (so the
patch differs from the current content).  The claim requires the css file's
content to become the proposal's css field; instead JS truthiness makes the
guard `response.css && response.css !== (cssFile?.content ?? '')` falsy for
the empty string, no job is queued, nothing is animated, and the css file
keeps its old content. -/
theorem askAI_empty_css_patch_skipped_counterexample :
    respCssEmpty.css = some [] ∧
    fileCss.content ≠ [] ∧
    (askAI true noThrow (.ok respCssEmpty) stC5).files = stC5.files ∧
    (askAI true noThrow (.ok respCssEmpty) stC5).animationLog = [] ∧
    fileCss ∈ (askAI true noThrow (.ok respCssEmpty) stC5).files := by
  decide
